import Mathlib

/-!
# Verification of the ai-nurse-scheduler specification

This file contains a shallow embedding of the parts of the repository that the
frozen claims refer to, together with theorems settling each claim.

Two groups of definitions appear below:

* The role-based access-control (RBAC) layer, translated directly from the
  TypeScript sources (`shared/permissions.ts` shipped as `src/unnamed/part_004`
  and `src/frontend/server/middleware/permissions.ts`).

* The branch-and-price rostering solver.  The optimizer sources
  (`core/models.py`, `core/constraints.py`, `core/rotation_builder.py`,
  `core/optimizer.py`) are referenced by the repository documentation but are
  not among the checked-in sources, so the solver is modelled from the
  specification (each such definition carries a `Modelled from the spec:` doc
  comment naming the missing source).

The file is organized as definitions first, then theorems.
-/

set_option maxRecDepth 10000

namespace NurseSched

/-! ## Definitions -/

/-- The `Role` union type from `shared/permissions.ts`. -/
inductive Role where
  | nurse
  | manager
  | admin
  deriving DecidableEq, Fintype

/-- The `Permission` union type from `shared/permissions.ts` (12 declared
permissions). -/
inductive Permission where
  | view_dashboard
  | view_nurses
  | create_nurse
  | edit_nurse
  | delete_nurse
  | view_schedules
  | create_schedule
  | edit_schedule
  | delete_schedule
  | export_data
  | manage_users
  | view_analytics
  deriving DecidableEq, Fintype

open Role Permission

/-- The `ROLE_PERMISSIONS` matrix from `shared/permissions.ts`. -/
def ROLE_PERMISSIONS : Role → List Permission
  | .nurse =>
    [view_dashboard, view_nurses, view_schedules]
  | .manager =>
    [view_dashboard, view_nurses, create_nurse, edit_nurse, view_schedules,
     create_schedule, edit_schedule, export_data, view_analytics]
  | .admin =>
    [view_dashboard, view_nurses, create_nurse, edit_nurse, delete_nurse,
     view_schedules, create_schedule, edit_schedule, delete_schedule,
     export_data, manage_users, view_analytics]

/-- `hasPermission` from `shared/permissions.ts`:
`ROLE_PERMISSIONS[role].includes(permission)`. -/
def hasPermission (role : Role) (permission : Permission) : Bool :=
  (ROLE_PERMISSIONS role).contains permission

/-- `hasAnyPermission` from `shared/permissions.ts`:
`permissions.some(permission => hasPermission(role, permission))`. -/
def hasAnyPermission (role : Role) (permissions : List Permission) : Bool :=
  permissions.any fun permission => hasPermission role permission

/-- `hasAllPermissions` from `shared/permissions.ts`:
`permissions.every(permission => hasPermission(role, permission))`. -/
def hasAllPermissions (role : Role) (permissions : List Permission) : Bool :=
  permissions.all fun permission => hasPermission role permission

/-- The tRPC error codes used by the permission middleware. -/
inductive TrpcErrorCode where
  | UNAUTHORIZED
  | FORBIDDEN
  deriving DecidableEq

/-- The part of the request user consulted by the middleware: its role. -/
structure AuthUser where
  role : Role
  deriving DecidableEq

/-- The part of `TrpcContext` consulted by the middleware: the optional user. -/
structure TrpcContext where
  user : Option AuthUser
  deriving DecidableEq

/-- `requirePermission` from `server/middleware/permissions.ts`: throws
`UNAUTHORIZED` when no user is logged in, `FORBIDDEN` when the user's role
lacks the permission, and otherwise returns the context. -/
def requirePermission (permission : Permission) (ctx : TrpcContext) :
    Except TrpcErrorCode TrpcContext :=
  match ctx.user with
  | none => .error .UNAUTHORIZED
  | some u =>
    if !(hasPermission u.role permission) then .error .FORBIDDEN
    else .ok ctx

/-- Modelled from the spec: the `Nurse` record of `core/models.py` (§3), kept to
the fields the hard constraints consult: id, max weekly hours, and the
consecutive-day limit. -/
structure Nurse where
  id : Nat
  maxWeeklyHours : Nat
  maxConsecutiveDays : Nat
  deriving DecidableEq

/-- Modelled from the spec: the `Shift` record of `core/models.py` (§3).  The
model uses one shift per day, the day being the index into the calendar list,
so a shift carries its hours and its required headcount. -/
structure Shift where
  hours : Nat
  demand : Nat
  deriving DecidableEq

/-- A shift calendar: one `Shift` per day of the horizon. -/
abbrev Calendar := List Shift

/-- Hours of the shift on day `d` (0 outside the horizon). -/
def shiftHours (cal : Calendar) (d : Nat) : Nat :=
  match cal[d]? with
  | some s => s.hours
  | none => 0

/-- Required headcount on day `d` (0 outside the horizon). -/
def shiftDemand (cal : Calendar) (d : Nat) : Nat :=
  match cal[d]? with
  | some s => s.demand
  | none => 0

/-- Modelled from the spec: the `Rotation` record of `core/models.py` (§3): a
maximal block of consecutive working days for one nurse, identified by the
nurse id, the first day and the length; hours and cost are derived from the
calendar. -/
structure Rotation where
  nurseId : Nat
  start : Nat
  len : Nat
  deriving DecidableEq

/-- The set of days a rotation works: the interval `[start, start + len)`. -/
def rotDays (r : Rotation) : Finset Nat :=
  Finset.Ico r.start (r.start + r.len)

/-- Total hours of a rotation under a calendar. -/
def rotHours (cal : Calendar) (r : Rotation) : Nat :=
  (rotDays r).sum (shiftHours cal)

/-- Hours a rotation works inside the sliding 7-day window starting at `w`. -/
def windowHours (cal : Calendar) (r : Rotation) (w : Nat) : Nat :=
  (rotDays r ∩ Finset.Ico w (w + 7)).sum (shiftHours cal)

/-- Modelled from the spec: the weekly-hour-cap hard constraint of
`core/constraints.py` (§3, §4.1): in every sliding 7-day window the rotation's
hours stay within `cap`.  Only windows starting before the rotation ends need
checking; later windows are empty. -/
def slidingWindowOk (cal : Calendar) (cap : Nat) (r : Rotation) : Bool :=
  (List.range (r.start + r.len)).all fun w =>
    decide (windowHours cal r w ≤ cap)

/-- Modelled from the spec: the hard-constraint evaluation of a single rotation
(`core/constraints.py`, §4.2): the rotation belongs to the nurse, is a
non-empty block inside the horizon, respects the maximum-consecutive-days
limit, and respects the weekly hour cap in every sliding 7-day window. -/
def rotationOk (cal : Calendar) (n : Nurse) (r : Rotation) : Bool :=
  decide (r.nurseId = n.id) && decide (1 ≤ r.len) &&
  decide (r.start + r.len ≤ cal.length) &&
  decide (r.len ≤ n.maxConsecutiveDays) &&
  slidingWindowOk cal n.maxWeeklyHours r

/-- Modelled from the spec: the Rotation Builder's
`generate(nurse, shift_calendar)` (`core/rotation_builder.py`, §4.1):
exhaustively enumerates consecutive-day blocks inside the horizon and keeps
exactly those satisfying the nurse's hard constraints. -/
def generate (n : Nurse) (cal : Calendar) : List Rotation :=
  (List.range cal.length).flatMap fun s =>
    (List.range cal.length).filterMap fun l =>
      let r : Rotation := ⟨n.id, s, l + 1⟩
      if rotationOk cal n r then some r else none

/-- A fingerprint: the deterministic identity of a rotation (nurse id, first
day, length). -/
abbrev Fingerprint := Nat × Nat × Nat

/-- Modelled from the spec: the deterministic fingerprint of a rotation
(`core/models.py`, §3): a hash of nurse and day sequence, modelled as the
injective tuple of the identifying fields. -/
def fingerprint (r : Rotation) : Fingerprint :=
  (r.nurseId, r.start, r.len)

/-- Modelled from the spec: the Column Pool (§3): an append-only store of
fingerprint-keyed rotations. -/
structure ColumnPool where
  entries : List (Fingerprint × Rotation)
  deriving DecidableEq

/-- The fingerprints currently in the pool. -/
def poolFps (p : ColumnPool) : List Fingerprint :=
  p.entries.map Prod.fst

/-- The rotations currently in the pool, in insertion order. -/
def poolCols (p : ColumnPool) : List Rotation :=
  p.entries.map Prod.snd

/-- Modelled from the spec: pool insertion (§3, §4.4): a rotation whose
fingerprint is already present is rejected (the pool is unchanged); otherwise
the entry is appended.  Entries are never removed. -/
def insertColumn (p : ColumnPool) (r : Rotation) : ColumnPool :=
  if fingerprint r ∈ poolFps p then p
  else ⟨p.entries ++ [(fingerprint r, r)]⟩

/-- Whether the pool already holds a rotation's fingerprint. -/
def fpMem (p : ColumnPool) (r : Rotation) : Bool :=
  decide (fingerprint r ∈ poolFps p)

/-- Number of selected rotations covering day `d`. -/
def coverCount (sel : List Rotation) (d : Nat) : Nat :=
  (sel.filter fun r => decide (r.start ≤ d ∧ d < r.start + r.len)).length

/-- Modelled from the spec: the coverage hard constraint of the master problem
(§3, §9): every day's demand is met by the selected rotations (the covering
inequality of the §9 open question, chosen and documented here). -/
def coverageOk (cal : Calendar) (sel : List Rotation) : Bool :=
  (List.range cal.length).all fun d =>
    decide (shiftDemand cal d ≤ coverCount sel d)

/-- Modelled from the spec: at most one rotation per nurse in an accepted
schedule (§3): all selected rotations carry pairwise distinct nurse ids. -/
def pairwiseNurseNe : List Rotation → Bool
  | [] => true
  | r :: rs =>
    (rs.all fun q => decide (q.nurseId ≠ r.nurseId)) && pairwiseNurseNe rs

/-- Modelled from the spec: the rotation-level hard check performed by the
Constraint Engine for a rotation inside a schedule: the owning nurse is looked
up by id and the rotation must satisfy that nurse's hard constraints. -/
def rotOkForOwner (nurses : List Nurse) (cal : Calendar) (r : Rotation) : Bool :=
  match nurses.find? fun n => decide (n.id = r.nurseId) with
  | some n => rotationOk cal n r
  | none => false

/-- Modelled from the spec: the Constraint Engine's hard-violation status of a
full schedule (`core/constraints.py`, §4.2): every chosen rotation satisfies
its owner's hard constraints, no nurse holds two rotations, and coverage is
met. -/
def scheduleHardOk (nurses : List Nurse) (cal : Calendar)
    (sel : List Rotation) : Bool :=
  sel.all (rotOkForOwner nurses cal) && pairwiseNurseNe sel && coverageOk cal sel

/-- Penalty weight applied to uncovered demand in the master relaxation
(artificial-variable big-M). -/
def bigM : Int := 1000000

/-- Base cost of a selection: total assigned hours. -/
def selCost (cal : Calendar) (sel : List Rotation) : Int :=
  (sel.map fun r => (rotHours cal r : Int)).sum

/-- Total uncovered demand of a selection over the horizon. -/
def shortfall (cal : Calendar) (sel : List Rotation) : Nat :=
  (Finset.range cal.length).sum fun d => shiftDemand cal d - coverCount sel d

/-- Objective of a selection in the master relaxation: base cost plus the
big-M penalty on uncovered demand. -/
def penValue (cal : Calendar) (sel : List Rotation) : Int :=
  selCost cal sel + bigM * (shortfall cal sel : Int)

/-- Minimum of a running value and a list of values. -/
def listMin1 : Int → List Int → Int
  | m, [] => m
  | m, x :: xs => listMin1 (min m x) xs

/-- Modelled from the spec: the value of the master relaxation over a column
set (§4.4, §6): the minimum over all selections drawn from the columns of the
penalized objective.  The empty selection is always available, so the value is
total; a non-optimal external LP status never arises in the model. -/
def lpValue (cal : Calendar) (cols : List Rotation) : Int :=
  match cols.sublists.map (penValue cal) with
  | [] => 0
  | x :: xs => listMin1 x xs

/-- One comparison step of the pricing scan: keep the candidate whose
insertion yields the strictly smaller LP value; on ties the earlier candidate
(lexicographically smallest day sequence, per §4.3) is kept. -/
def betterCandidate (cal : Calendar) (p : ColumnPool) (c : Rotation)
    (best : Option Rotation) : Option Rotation :=
  match best with
  | none =>
    if lpValue cal (poolCols (insertColumn p c)) < lpValue cal (poolCols p) then
      some c
    else none
  | some b =>
    if lpValue cal (poolCols (insertColumn p c)) <
        lpValue cal (poolCols (insertColumn p b)) then some c
    else some b

/-- Modelled from the spec: the Pricing Oracle per nurse (§4.3): scan the
nurse's feasible rotations, skip fingerprints already in the pool, and return
the rotation whose addition improves the relaxation the most (none when no
rotation improves). -/
def bestImproving (cal : Calendar) (p : ColumnPool) (n : Nurse) :
    Option Rotation :=
  (generate n cal).foldl
    (fun best c => if fpMem p c then best else betterCandidate cal p c best)
    none

/-- A pricing result: the nurse's id together with the priced rotation. -/
abbrev PriceResult := Nat × Rotation

/-- Insertion into a list sorted by nurse id. -/
def insertSortedById (x : PriceResult) : List PriceResult → List PriceResult
  | [] => [x]
  | y :: ys => if x.1 ≤ y.1 then x :: y :: ys else y :: insertSortedById x ys

/-- Modelled from the spec: merging pricing results in fixed nurse-id order
before insertion (§5), so the merged order is independent of completion
order. -/
def sortById (l : List PriceResult) : List PriceResult :=
  l.foldr insertSortedById []

/-- Sortedness by nurse id, as a pairwise relation. -/
def IdSorted (l : List PriceResult) : Prop :=
  l.Pairwise fun a b => a.1 ≤ b.1

/-- Modelled from the spec: one pricing round (§4.4, §5): each nurse of the
round's completion order prices independently; the results are merged in fixed
nurse-id order before insertion. -/
def priceRound (cal : Calendar) (p : ColumnPool) (arrival : List Nurse) :
    List PriceResult :=
  sortById (arrival.filterMap fun n =>
    (bestImproving cal p n).map fun r => (n.id, r))

/-- Insert merged pricing results into the pool, in merged order. -/
def addColumns (p : ColumnPool) (cols : List PriceResult) : ColumnPool :=
  cols.foldl (fun q c => insertColumn q c.2) p

/-- The state reported by the column-generation loop: final pool, whether the
loop converged (as opposed to hitting the iteration budget), and the LP value
recorded at each `SOLVE_LP` step. -/
structure CGResult where
  pool : ColumnPool
  converged : Bool
  trace : List Int
  deriving DecidableEq

/-- Modelled from the spec: the column-generation state machine (§4.4):
solve the LP, price all nurses under the round's completion order, and either
converge (no improving rotation), loop with the added columns, or stop on the
iteration budget, in which case the result is marked time-limited
(`converged = false`). -/
def cgLoop (nurses : List Nurse) (cal : Calendar) :
    Nat → ColumnPool → List (List Nurse) → CGResult
  | 0, p, _ => ⟨p, false, []⟩
  | fuel + 1, p, arrs =>
    let v := lpValue cal (poolCols p)
    let arrival := arrs.headD nurses
    let newCols := priceRound cal p arrival
    if newCols.isEmpty then ⟨p, true, [v]⟩
    else
      let res := cgLoop nurses cal fuel (addColumns p newCols) arrs.tail
      ⟨res.pool, res.converged, v :: res.trace⟩

/-- Modelled from the spec: seeding the pool (§4.4 `INIT`): every nurse's
generated rotations are inserted in nurse order. -/
def seedPool (nurses : List Nurse) (cal : Calendar) : ColumnPool :=
  nurses.foldl (fun p n => (generate n cal).foldl insertColumn p) ⟨[]⟩

/-- The solver's error taxonomy (§7) restricted to the errors the model can
surface. -/
inductive SolverError where
  | InfeasibleProblem
  | SolverFailure
  deriving DecidableEq

/-- Modelled from the spec: the result export object (§6): chosen rotations,
feasibility flag, optimality-proven flag, and the LP-value trace as the
iteration statistics. -/
structure SolveOutput where
  rotations : List Rotation
  feasible : Bool
  optimalProven : Bool
  trace : List Int
  deriving DecidableEq

/-- Cheapest hard-feasible selection among all selections drawn from the pool,
or `none` when no selection satisfies the hard constraints. -/
def bestFeasible (nurses : List Nurse) (cal : Calendar) (p : ColumnPool) :
    Option (List Rotation) :=
  match (poolCols p).sublists.filter (scheduleHardOk nurses cal) with
  | [] => none
  | s :: ss =>
    some (ss.foldl (fun best t => if selCost cal t < selCost cal best then t else best) s)

/-- The penalized incumbent: the selection minimizing the penalized master
objective, used as the reported schedule when no hard-feasible selection
exists at the time budget. -/
def bestPenalized (cal : Calendar) (p : ColumnPool) : List Rotation :=
  match (poolCols p).sublists with
  | [] => []
  | s :: ss =>
    ss.foldl (fun best t => if penValue cal t < penValue cal best then t else best) s

/-- Modelled from the spec: the solver entry point (§4.4–§4.6, §7): seed the
pool, run column generation under the iteration budget `fuel` with the given
per-round completion orders, then assemble the result.  A hard-feasible
selection is returned with the feasibility flag computed by the Constraint
Engine; with full generation (convergence) and no hard-feasible combination
the solver surfaces `InfeasibleProblem`; at the time budget the penalized
incumbent is returned, again with the engine-computed feasibility flag. -/
def solve (nurses : List Nurse) (cal : Calendar)
    (arrivals : List (List Nurse)) (fuel : Nat) :
    Except SolverError SolveOutput :=
  let res := cgLoop nurses cal fuel (seedPool nurses cal) arrivals
  match bestFeasible nurses cal res.pool with
  | some sel =>
    .ok ⟨sel, scheduleHardOk nurses cal sel, res.converged, res.trace⟩
  | none =>
    if res.converged then .error .InfeasibleProblem
    else
      let sel := bestPenalized cal res.pool
      .ok ⟨sel, scheduleHardOk nurses cal sel, false, res.trace⟩

/-- A branching candidate: the branch entity's id together with its fractional
LP value. -/
abbrev BranchCandidate := Nat × ℚ

/-- Distance of a candidate's LP value from one half: the most-fractional
candidate minimizes this. -/
def fracScore (c : BranchCandidate) : ℚ :=
  |c.2 - 1 / 2|

/-- Modelled from the spec: the default branching heuristic (§4.6): pick the
most-fractional candidate (earliest on ties). -/
def defaultPick : List BranchCandidate → Option BranchCandidate
  | [] => none
  | c :: cs =>
    some (cs.foldl (fun best d => if fracScore d < fracScore best then d else best) c)

/-- Modelled from the spec: an externally supplied branching scorer (§4.6):
given the fractional solution's candidates it either returns a selection or
throws (modelled by `Except.error`). -/
abbrev ExternalScorer := List BranchCandidate → Except Unit BranchCandidate

/-- A scorer result is valid when it names one of the candidate entities. -/
def validResult (cands : List BranchCandidate) (r : BranchCandidate) : Bool :=
  cands.any fun c => decide (c.1 = r.1)

/-- Modelled from the spec: the Driver's branching-entity selection (§4.5,
§4.6): use the external scorer when present, but fall back to the default
most-fractional heuristic when the scorer throws or returns an invalid
result. -/
def selectBranch (scorer : Option ExternalScorer)
    (cands : List BranchCandidate) : Option BranchCandidate :=
  match defaultPick cands with
  | none => none
  | some d =>
    match scorer with
    | none => some d
    | some f =>
      match f cands with
      | .error _ => some d
      | .ok r => if validResult cands r then some r else some d

/-- Number of (possibly partial) weeks in the horizon. -/
def weeksOf (cal : Calendar) : Nat :=
  (cal.length + 6) / 7

/-- Modelled from the spec: the total available nurse-hours of an instance —
each nurse can supply at most the weekly cap in each of the horizon's weeks. -/
def availableHours (nurses : List Nurse) (cal : Calendar) : Nat :=
  (nurses.map fun n => n.maxWeeklyHours * weeksOf cal).sum

/-- Modelled from the spec: the total demanded nurse-hours of an instance:
each day's shift hours times its required headcount. -/
def demandHours (cal : Calendar) : Nat :=
  (Finset.range cal.length).sum fun d => shiftHours cal d * shiftDemand cal d

/-- The pool's candidate universe: every nurse's generated rotations. -/
def allCandidates (nurses : List Nurse) (cal : Calendar) : List Rotation :=
  nurses.flatMap fun n => generate n cal

/-- Size of the candidate universe: an upper bound on pool growth. -/
def totalCandidates (nurses : List Nurse) (cal : Calendar) : Nat :=
  (allCandidates nurses cal).length

/-- Pool well-formedness: duplicate-free fingerprints, and every entry keys
its rotation's fingerprint to a rotation generated for one of the instance's
nurses. -/
def PoolWf (nurses : List Nurse) (cal : Calendar) (p : ColumnPool) : Prop :=
  (poolFps p).Nodup ∧
  ∀ e ∈ p.entries, e.1 = fingerprint e.2 ∧ ∃ n ∈ nurses, e.2 ∈ generate n cal

/-! ## Theorems -/

/-- C8: the permission sets of the three roles are nested: every nurse
permission is a manager permission, every manager permission is an admin
permission, and the admin role holds every declared permission. -/
theorem role_permissions_nested :
    ∀ p : Permission,
      (hasPermission Role.nurse p = true → hasPermission Role.manager p = true) ∧
      (hasPermission Role.manager p = true → hasPermission Role.admin p = true) ∧
      hasPermission Role.admin p = true := by
  decide

/-- Witness for C8 at the concrete permission `view_dashboard`, discharging
both implication hypotheses. -/
theorem role_permissions_nested_witness :
    hasPermission Role.manager Permission.view_dashboard = true ∧
    hasPermission Role.admin Permission.view_dashboard = true := by
  refine ⟨(role_permissions_nested Permission.view_dashboard).1 ?_,
    (role_permissions_nested Permission.view_dashboard).2.1 ?_⟩ <;> decide

/-- C9: `requirePermission` throws `UNAUTHORIZED` exactly when the context has
no user, throws `FORBIDDEN` exactly when a user is present whose role lacks the
permission, and otherwise returns the context unchanged. -/
theorem requirePermission_spec (p : Permission) (ctx : TrpcContext) :
    (requirePermission p ctx = .error .UNAUTHORIZED ↔ ctx.user = none) ∧
    (requirePermission p ctx = .error .FORBIDDEN ↔
      ∃ u, ctx.user = some u ∧ hasPermission u.role p = false) ∧
    (requirePermission p ctx = .ok ctx ↔
      ∃ u, ctx.user = some u ∧ hasPermission u.role p = true) := by
  obtain ⟨u⟩ := ctx
  cases u with
  | none => simp [requirePermission]
  | some a =>
    by_cases h : hasPermission a.role p <;>
      simp [requirePermission, h]

/-- C10: `hasAnyPermission` is false on the empty list, `hasAllPermissions` is
true on the empty list, and on a non-empty list `hasAllPermissions` implies
`hasAnyPermission`. -/
theorem hasAny_hasAll_spec (role : Role) :
    hasAnyPermission role [] = false ∧
    hasAllPermissions role [] = true ∧
    ∀ l : List Permission, l ≠ [] → hasAllPermissions role l = true →
      hasAnyPermission role l = true := by
  refine ⟨rfl, rfl, ?_⟩
  intro l hne hall
  cases l with
  | nil => exact absurd rfl hne
  | cons p ps =>
    simp only [hasAllPermissions, List.all_cons, Bool.and_eq_true] at hall
    simp only [hasAnyPermission, List.any_cons, Bool.or_eq_true]
    exact Or.inl hall.1

/-- Witness for C10 at `role = nurse` and `l = [view_dashboard]`, discharging
both hypotheses of the non-empty-list conjunct. -/
theorem hasAny_hasAll_spec_witness :
    hasAnyPermission Role.nurse [Permission.view_dashboard] = true :=
  (hasAny_hasAll_spec Role.nurse).2.2 [Permission.view_dashboard]
    (by decide) (by decide)

/-- Every window bound checked finitely by `slidingWindowOk` in fact holds for
every window start `w`. -/
theorem slidingWindowOk_all {cal : Calendar} {cap : Nat} {r : Rotation}
    (h : slidingWindowOk cal cap r = true) :
    ∀ w, windowHours cal r w ≤ cap := by
  intro w
  by_cases hw : w < r.start + r.len
  · have := List.all_eq_true.mp h w (List.mem_range.mpr hw)
    exact of_decide_eq_true this
  · have hempty : rotDays r ∩ Finset.Ico w (w + 7) = ∅ := by
      rw [rotDays, Finset.Ico_inter_Ico, Finset.Ico_eq_empty]
      intro hlt
      have h1 : r.start + r.len ≤ w := Nat.le_of_not_lt hw
      have h2 : min (r.start + r.len) (w + 7) ≤ r.start + r.len := min_le_left _ _
      have h3 : w ≤ max r.start w := le_max_right _ _
      omega
    rw [windowHours, hempty]
    simp

/-- Membership in `generate` implies the hard-constraint check passed. -/
theorem mem_generate_rotationOk {n : Nurse} {cal : Calendar} {r : Rotation}
    (hr : r ∈ generate n cal) : rotationOk cal n r = true := by
  simp only [generate, List.mem_flatMap, List.mem_filterMap] at hr
  obtain ⟨s, -, l, -, hl⟩ := hr
  by_cases hok : rotationOk cal n ⟨n.id, s, l + 1⟩ <;> simp [hok] at hl
  exact hl ▸ hok

theorem fingerprint_inj {a b : Rotation} (h : fingerprint a = fingerprint b) :
    a = b := by
  cases a; cases b
  simp only [fingerprint, Prod.mk.injEq] at h
  simp [h.1, h.2.1, h.2.2]

theorem insertColumn_of_mem {p : ColumnPool} {r : Rotation}
    (h : fingerprint r ∈ poolFps p) : insertColumn p r = p := by
  simp [insertColumn, h]

theorem insertColumn_entries (p : ColumnPool) (r : Rotation) :
    (insertColumn p r).entries = p.entries ∨
    (insertColumn p r).entries = p.entries ++ [(fingerprint r, r)] := by
  by_cases h : fingerprint r ∈ poolFps p <;> simp [insertColumn, h]

/-- Inserting never shortens the pool, and inserting a fresh fingerprint
strictly lengthens it. -/
theorem insertColumn_length (p : ColumnPool) (r : Rotation) :
    p.entries.length ≤ (insertColumn p r).entries.length := by
  rcases insertColumn_entries p r with h | h <;> simp [h]

theorem insertColumn_length_fresh {p : ColumnPool} {r : Rotation}
    (h : fpMem p r = false) :
    p.entries.length + 1 ≤ (insertColumn p r).entries.length := by
  have hmem : fingerprint r ∉ poolFps p := by
    simpa [fpMem] using h
  simp [insertColumn, hmem]

theorem listMin1_le_self (m : Int) (l : List Int) : listMin1 m l ≤ m := by
  induction l generalizing m with
  | nil => exact le_refl m
  | cons x xs ih => exact le_trans (ih (min m x)) (min_le_left m x)

theorem listMin1_le_mem {x : Int} :
    ∀ (l : List Int) (m : Int), x ∈ l → listMin1 m l ≤ x
  | [], _, hx => absurd hx (List.not_mem_nil x)
  | y :: ys, m, hx => by
    show listMin1 (min m y) ys ≤ x
    rcases List.mem_cons.mp hx with h | h
    · subst h
      exact le_trans (listMin1_le_self (min m x) ys) (min_le_right m x)
    · exact listMin1_le_mem ys (min m y) h

theorem listMin1_mem :
    ∀ (m : Int) (l : List Int), listMin1 m l = m ∨ listMin1 m l ∈ l
  | _, [] => Or.inl rfl
  | m, x :: xs => by
    show listMin1 (min m x) xs = m ∨ listMin1 (min m x) xs ∈ x :: xs
    rcases listMin1_mem (min m x) xs with h | h
    · rcases min_cases m x with ⟨hmin, -⟩ | ⟨hmin, -⟩
      · exact Or.inl (h.trans hmin)
      · exact Or.inr (by rw [h, hmin]; exact List.mem_cons_self x xs)
    · exact Or.inr (List.mem_cons_of_mem x h)

theorem lpValue_le_penValue {cal : Calendar} {cols s : List Rotation}
    (hs : List.Sublist s cols) : lpValue cal cols ≤ penValue cal s := by
  have hmem : penValue cal s ∈ cols.sublists.map (penValue cal) :=
    List.mem_map_of_mem _ (List.mem_sublists.mpr hs)
  rw [lpValue]
  rcases hx : cols.sublists.map (penValue cal) with - | ⟨x, xs⟩
  · rw [hx] at hmem; cases hmem
  · rw [hx] at hmem
    rcases List.mem_cons.mp hmem with h | h
    · exact h ▸ listMin1_le_self x xs
    · exact listMin1_le_mem xs x h

theorem lpValue_attained (cal : Calendar) (cols : List Rotation) :
    ∃ s, List.Sublist s cols ∧ lpValue cal cols = penValue cal s := by
  rw [lpValue]
  rcases hx : cols.sublists.map (penValue cal) with - | ⟨x, xs⟩
  · exfalso
    have : penValue cal [] ∈ cols.sublists.map (penValue cal) :=
      List.mem_map_of_mem _ (List.mem_sublists.mpr (List.nil_sublist cols))
    rw [hx] at this; cases this
  · have hmem : listMin1 x xs ∈ x :: xs := by
      rcases listMin1_mem x xs with h | h
      · rw [h]; exact List.mem_cons_self x xs
      · exact List.mem_cons_of_mem x h
    rw [← hx] at hmem
    obtain ⟨s, hs, hval⟩ := List.mem_map.mp hmem
    exact ⟨s, List.mem_sublists.mp hs, hval.symm⟩

/-- Adding columns can only improve (weakly decrease) the LP relaxation
value. -/
theorem lpValue_append_le (cal : Calendar) (cols more : List Rotation) :
    lpValue cal (cols ++ more) ≤ lpValue cal cols := by
  obtain ⟨s, hs, hval⟩ := lpValue_attained cal cols
  rw [hval]
  exact lpValue_le_penValue (hs.trans (List.sublist_append_left cols more))

theorem foldl_pricing_sound (cal : Calendar) (p : ColumnPool)
    (P : Rotation → Prop) :
    ∀ (l : List Rotation) (acc : Option Rotation),
      (∀ r, acc = some r → P r) →
      (∀ c ∈ l, fpMem p c = false → P c) →
      ∀ r,
        l.foldl
          (fun best c => if fpMem p c then best else betterCandidate cal p c best)
          acc = some r → P r
  | [], acc, hacc, _, r, hr => hacc r hr
  | c :: cs, acc, hacc, hl, r, hr => by
    rw [List.foldl_cons] at hr
    refine foldl_pricing_sound cal p P cs _ ?_ (fun d hd => hl d (List.mem_cons_of_mem c hd)) r hr
    intro q hq
    by_cases hfp : fpMem p c
    · rw [if_pos hfp] at hq
      exact hacc q hq
    · rw [if_neg (by simpa using hfp)] at hq
      have hc : P c := hl c (List.mem_cons_self c cs) (by simpa using hfp)
      cases hacc' : acc with
      | none =>
        rw [hacc', betterCandidate] at hq
        split at hq
        · cases hq; exact hc
        · cases hq
      | some b =>
        rw [hacc', betterCandidate] at hq
        split at hq
        · cases hq; exact hc
        · cases hq; exact hacc _ hacc'

/-- A priced rotation is one of the nurse's generated rotations and its
fingerprint is not yet in the pool. -/
theorem bestImproving_sound {cal : Calendar} {p : ColumnPool} {n : Nurse}
    {r : Rotation} (h : bestImproving cal p n = some r) :
    r ∈ generate n cal ∧ fpMem p r = false := by
  refine foldl_pricing_sound cal p (fun q => q ∈ generate n cal ∧ fpMem p q = false)
    (generate n cal) none (fun q hq => by cases hq) (fun c hc hfp => ⟨hc, hfp⟩) r h

theorem insertSortedById_perm (x : PriceResult) :
    ∀ l : List PriceResult, List.Perm (insertSortedById x l) (x :: l)
  | [] => List.Perm.refl [x]
  | y :: ys => by
    rw [insertSortedById]
    split
    · exact List.Perm.refl _
    · exact ((insertSortedById_perm x ys).cons y).trans (List.Perm.swap x y ys)

theorem sortById_perm : ∀ l : List PriceResult, List.Perm (sortById l) l
  | [] => List.Perm.refl []
  | x :: xs =>
    (insertSortedById_perm x (sortById xs)).trans ((sortById_perm xs).cons x)

theorem insertSortedById_sorted (x : PriceResult) :
    ∀ {l : List PriceResult}, IdSorted l → IdSorted (insertSortedById x l)
  | [], _ => List.pairwise_singleton _ x
  | y :: ys, hs => by
    rw [insertSortedById]
    rcases List.pairwise_cons.mp hs with ⟨hy, hys⟩
    split
    · rename_i hxy
      exact List.pairwise_cons.mpr
        ⟨fun z hz => by
          rcases List.mem_cons.mp hz with h | h
          · exact h ▸ hxy
          · exact le_trans hxy (hy z h), hs⟩
    · rename_i hxy
      have hyx : y.1 ≤ x.1 := le_of_not_le hxy
      refine List.pairwise_cons.mpr ⟨?_, insertSortedById_sorted x hys⟩
      intro z hz
      have hz' : z ∈ x :: ys := (insertSortedById_perm x ys).mem_iff.mp hz
      rcases List.mem_cons.mp hz' with h | h
      · exact h ▸ hyx
      · exact hy z h

theorem sortById_sorted : ∀ l : List PriceResult, IdSorted (sortById l)
  | [] => List.Pairwise.nil
  | x :: xs => insertSortedById_sorted x (sortById_sorted xs)

/-- Two sorted lists with pairwise distinct ids that are permutations of each
other are equal. -/
theorem sorted_perm_eq :
    ∀ (l₁ l₂ : List PriceResult), List.Perm l₁ l₂ → IdSorted l₁ → IdSorted l₂ →
      (l₁.Pairwise fun a b => a.1 ≠ b.1) → l₁ = l₂
  | [], l₂, hp, _, _, _ => (List.Perm.nil_eq hp).symm ▸ rfl
  | a :: t₁, [], hp, _, _, _ => absurd hp.symm (by simp)
  | a :: t₁, b :: t₂, hp, hs₁, hs₂, hne => by
    rcases List.pairwise_cons.mp hs₁ with ⟨ha, hs₁'⟩
    rcases List.pairwise_cons.mp hs₂ with ⟨hb, hs₂'⟩
    rcases List.pairwise_cons.mp hne with ⟨hane, hne'⟩
    have hab : a = b := by
      have hamem : a ∈ b :: t₂ := hp.mem_iff.mp (List.mem_cons_self a t₁)
      rcases List.mem_cons.mp hamem with h | h
      · exact h
      · have hbmem : b ∈ a :: t₁ := hp.mem_iff.mpr (List.mem_cons_self b t₂)
        rcases List.mem_cons.mp hbmem with h' | h'
        · exact h'.symm
        · exfalso
          have h1 : b.1 ≤ a.1 := hb a h
          have h2 : a.1 ≤ b.1 := ha b h'
          exact hane b h' (le_antisymm h2 h1)
    subst hab
    have ht : List.Perm t₁ t₂ := hp.cons_inv
    rw [sorted_perm_eq t₁ t₂ ht hs₁' hs₂' hne']

theorem addColumns_entries (cols : List PriceResult) :
    ∀ p : ColumnPool, ∃ added, (addColumns p cols).entries = p.entries ++ added := by
  induction cols with
  | nil => exact fun p => ⟨[], by simp [addColumns]⟩
  | cons c cs ih =>
    intro p
    obtain ⟨added, hadded⟩ := ih (insertColumn p c.2)
    rcases insertColumn_entries p c.2 with h | h
    · exact ⟨added, by rw [addColumns, List.foldl_cons, ← addColumns, hadded, h]⟩
    · exact ⟨(fingerprint c.2, c.2) :: added, by
        rw [addColumns, List.foldl_cons, ← addColumns, hadded, h, List.append_assoc]
        rfl⟩

theorem lpValue_addColumns_le (cal : Calendar) (p : ColumnPool)
    (cols : List PriceResult) :
    lpValue cal (poolCols (addColumns p cols)) ≤ lpValue cal (poolCols p) := by
  obtain ⟨added, hadded⟩ := addColumns_entries cols p
  have : poolCols (addColumns p cols) = poolCols p ++ added.map Prod.snd := by
    rw [poolCols, hadded, List.map_append]; rfl
  rw [this]
  exact lpValue_append_le cal (poolCols p) (added.map Prod.snd)

theorem cgLoop_trace_head (nurses : List Nurse) (cal : Calendar) :
    ∀ (fuel : Nat) (p : ColumnPool) (arrs : List (List Nurse)),
      (cgLoop nurses cal fuel p arrs).trace = [] ∨
      ∃ t, (cgLoop nurses cal fuel p arrs).trace = lpValue cal (poolCols p) :: t
  | 0, p, arrs => Or.inl rfl
  | fuel + 1, p, arrs => by
    simp only [cgLoop]
    split
    · exact Or.inr ⟨[], rfl⟩
    · exact Or.inr ⟨_, rfl⟩

/-- C4: across the iterations of the column-generation loop, the recorded LP
relaxation values form a monotonically non-increasing sequence. -/
theorem lp_trace_monotone (nurses : List Nurse) (cal : Calendar) :
    ∀ (fuel : Nat) (p : ColumnPool) (arrs : List (List Nurse)),
      List.Chain' (fun a b => b ≤ a) (cgLoop nurses cal fuel p arrs).trace
  | 0, p, arrs => List.chain'_nil
  | fuel + 1, p, arrs => by
    simp only [cgLoop]
    split
    · exact List.chain'_singleton _
    · refine List.chain'_cons'.mpr ⟨?_, lp_trace_monotone nurses cal fuel _ _⟩
      intro b hb
      rcases cgLoop_trace_head nurses cal fuel
        (addColumns p (priceRound cal p (arrs.headD nurses))) arrs.tail with h | ⟨t, h⟩
      · rw [h] at hb; cases hb
      · rw [h] at hb
        simp only [List.head?_cons, Option.mem_def, Option.some.injEq] at hb
        rw [← hb]
        exact lpValue_addColumns_le cal p (priceRound cal p (arrs.headD nurses))

/-- C1: for every schedule the solver returns — converged or time-limited —
the feasibility flag is true exactly when the final chosen rotations satisfy
all hard constraints; in particular no returned schedule is flagged feasible
while violating a hard constraint. -/
theorem feasibility_flag_strict (nurses : List Nurse) (cal : Calendar)
    (arrivals : List (List Nurse)) (fuel : Nat) (out : SolveOutput)
    (h : solve nurses cal arrivals fuel = .ok out) :
    out.feasible = true ↔ scheduleHardOk nurses cal out.rotations = true := by
  simp only [solve] at h
  split at h
  · cases h
    exact Iff.rfl
  · split at h
    · cases h
    · cases h
      exact Iff.rfl

/-- Witness for C1: the one-nurse one-day instance; the solver returns a
schedule whose flag agrees with the hard-constraint check. -/
theorem feasibility_flag_strict_witness :
    (true = true ↔ scheduleHardOk [⟨0, 40, 3⟩] [⟨8, 1⟩] [⟨0, 0, 1⟩] = true) :=
  feasibility_flag_strict [⟨0, 40, 3⟩] [⟨8, 1⟩] [] 1
    ⟨[⟨0, 0, 1⟩], true, true, [8]⟩ (by rfl)

/-- C7: whenever fractional candidates exist, branching selects some entity —
under every external scorer, including throwing or invalid ones — and a scorer
that throws or returns an invalid result leaves the search on the default
most-fractional heuristic. -/
theorem branching_failure_nonfatal (scorer : Option ExternalScorer)
    (cands : List BranchCandidate) (hne : cands ≠ []) :
    (∃ c, selectBranch scorer cands = some c) ∧
    (∀ f, scorer = some f →
      (∀ e, f cands = .error e →
        selectBranch scorer cands = defaultPick cands) ∧
      (∀ r, f cands = .ok r → validResult cands r = false →
        selectBranch scorer cands = defaultPick cands)) := by
  cases cands with
  | nil => exact absurd rfl hne
  | cons c cs =>
    constructor
    · cases scorer with
      | none => exact ⟨_, rfl⟩
      | some f =>
        rcases hf : f (c :: cs) with e | r
        · exact ⟨cs.foldl (fun best d => if fracScore d < fracScore best then d else best) c,
            by simp [selectBranch, defaultPick, hf]⟩
        · by_cases hv : validResult (c :: cs) r
          · exact ⟨r, by simp [selectBranch, defaultPick, hf, hv]⟩
          · exact ⟨cs.foldl (fun best d => if fracScore d < fracScore best then d else best) c,
              by simp [selectBranch, defaultPick, hf, hv]⟩
    · rintro f rfl
      refine ⟨fun e hf => ?_, fun r hf hv => ?_⟩
      · simp [selectBranch, defaultPick, hf]
      · simp [selectBranch, defaultPick, hf, hv]

/-- Witness for C7: a scorer that always throws on a singleton candidate list;
branching still selects the default most-fractional candidate. -/
theorem branching_failure_nonfatal_witness :
    (∃ c, selectBranch (some fun _ => .error ()) [(0, 1 / 2)] = some c) ∧
    selectBranch (some fun _ => .error ()) [(0, 1 / 2)] =
      defaultPick [(0, 1 / 2)] :=
  ⟨(branching_failure_nonfatal (some fun _ => .error ()) [(0, 1 / 2)]
      (by simp)).1,
   ((branching_failure_nonfatal (some fun _ => .error ()) [(0, 1 / 2)]
      (by simp)).2 (fun _ => .error ()) rfl).1 () rfl⟩

/-- The pricing round's merged output is independent of the completion
order. -/
theorem priceRound_perm_eq (cal : Calendar) (p : ColumnPool)
    {a1 a2 : List Nurse} (hperm : List.Perm a1 a2)
    (hids : a1.Pairwise fun m n => m.id ≠ n.id) :
    priceRound cal p a1 = priceRound cal p a2 := by
  set f : Nurse → Option PriceResult :=
    fun n => (bestImproving cal p n).map fun r => (n.id, r) with hf
  have hresperm : List.Perm (a1.filterMap f) (a2.filterMap f) := hperm.filterMap f
  have hkeys : (a1.filterMap f).Pairwise fun x y => x.1 ≠ y.1 := by
    refine List.Pairwise.filterMap f ?_ hids
    intro m n hmn c hc d hd
    have hc1 : c.1 = m.id := by
      rcases hb : bestImproving cal p m with - | r
      · rw [hf] at hc; simp [hb] at hc
      · rw [hf] at hc; simp [hb] at hc; rw [← hc]
    have hd1 : d.1 = n.id := by
      rcases hb : bestImproving cal p n with - | r
      · rw [hf] at hd; simp [hb] at hd
      · rw [hf] at hd; simp [hb] at hd; rw [← hd]
    rw [hc1, hd1]
    exact hmn
  have hperm' : List.Perm (sortById (a1.filterMap f)) (sortById (a2.filterMap f)) :=
    ((sortById_perm _).trans hresperm).trans (sortById_perm _).symm
  have hkeys' : (sortById (a1.filterMap f)).Pairwise fun x y => x.1 ≠ y.1 :=
    ((sortById_perm (a1.filterMap f)).pairwise_iff fun h => h.symm).mpr hkeys
  exact sorted_perm_eq _ _ hperm' (sortById_sorted _) (sortById_sorted _) hkeys'

/-- The column-generation loop's result is independent of the per-round
completion orders, as long as each round's order is a permutation of the
nurse list. -/
theorem cgLoop_arrival_order_independent (nurses : List Nurse) (cal : Calendar)
    (hids : nurses.Pairwise fun m n => m.id ≠ n.id) :
    ∀ (fuel : Nat) (p : ColumnPool) (arrs1 arrs2 : List (List Nurse)),
      List.Forall₂ (fun a b => List.Perm a b) arrs1 arrs2 →
      (∀ a ∈ arrs1, List.Perm a nurses) →
      cgLoop nurses cal fuel p arrs1 = cgLoop nurses cal fuel p arrs2
  | 0, p, arrs1, arrs2, _, _ => rfl
  | fuel + 1, p, arrs1, arrs2, hperm, hmem => by
    cases hperm with
    | nil => rfl
    | cons hab ht =>
      rename_i a b t1 t2
      have hpa : a.Pairwise fun m n => m.id ≠ n.id :=
        ((hmem a (List.mem_cons_self a t1)).pairwise_iff fun h => h.symm).mpr hids
      have hround : priceRound cal p a = priceRound cal p b :=
        priceRound_perm_eq cal p hab hpa
      simp only [cgLoop, List.headD_cons, List.tail_cons, hround]
      split
      · rfl
      · rw [cgLoop_arrival_order_independent nurses cal hids fuel _ t1 t2 ht
          fun x hx => hmem x (List.mem_cons_of_mem a hx)]

/-- C5: two single-threaded runs of the solver on identical input — differing
only in the completion order of the parallel-capable pricing rounds — produce
identical outputs: the same selected rotations and the same objective data. -/
theorem solve_deterministic (nurses : List Nurse) (cal : Calendar)
    (arrs1 arrs2 : List (List Nurse)) (fuel : Nat)
    (hids : nurses.Pairwise fun m n => m.id ≠ n.id)
    (hperm : List.Forall₂ (fun a b => List.Perm a b) arrs1 arrs2)
    (hmem : ∀ a ∈ arrs1, List.Perm a nurses) :
    solve nurses cal arrs1 fuel = solve nurses cal arrs2 fuel := by
  simp only [solve,
    cgLoop_arrival_order_independent nurses cal hids fuel (seedPool nurses cal)
      arrs1 arrs2 hperm hmem]

/-- Witness for C5: two nurses, two days, the two runs pricing in opposite
completion orders; the outputs coincide. -/
theorem solve_deterministic_witness :
    solve [⟨0, 40, 2⟩, ⟨1, 40, 2⟩] [⟨8, 1⟩, ⟨8, 1⟩]
        [[⟨0, 40, 2⟩, ⟨1, 40, 2⟩]] 2 =
      solve [⟨0, 40, 2⟩, ⟨1, 40, 2⟩] [⟨8, 1⟩, ⟨8, 1⟩]
        [[⟨1, 40, 2⟩, ⟨0, 40, 2⟩]] 2 :=
  solve_deterministic [⟨0, 40, 2⟩, ⟨1, 40, 2⟩] [⟨8, 1⟩, ⟨8, 1⟩]
    [[⟨0, 40, 2⟩, ⟨1, 40, 2⟩]] [[⟨1, 40, 2⟩, ⟨0, 40, 2⟩]] 2
    (by decide)
    (List.Forall₂.cons
      (List.Perm.swap (⟨1, 40, 2⟩ : Nurse) (⟨0, 40, 2⟩ : Nurse) [])
      List.Forall₂.nil)
    (by
      intro a ha
      rcases List.mem_cons.mp ha with h | h
      · rw [h]
      · cases h)

/-- Chunking bound: when every sliding 7-day window of an interval is within
`cap`, the whole interval's hours are at most `cap` per (partial) week. -/
theorem ico_hours_le (cal : Calendar) (cap : Nat) :
    ∀ (len s : Nat),
      (∀ w, ((Finset.Ico s (s + len)) ∩ Finset.Ico w (w + 7)).sum (shiftHours cal) ≤ cap) →
      (Finset.Ico s (s + len)).sum (shiftHours cal) ≤ cap * ((len + 6) / 7) := by
  intro len
  induction len using Nat.strong_induction_on with
  | _ len ih =>
    intro s hw
    by_cases h0 : len = 0
    · subst h0; simp
    by_cases h7 : len ≤ 7
    · have hwin := hw s
      have hinter : Finset.Ico s (s + len) ∩ Finset.Ico s (s + 7) =
          Finset.Ico s (s + len) := by
        rw [Finset.Ico_inter_Ico, max_self]
        congr 1
        exact min_eq_left (by omega)
      rw [hinter] at hwin
      have hweek : 1 ≤ (len + 6) / 7 :=
        (Nat.one_le_div_iff (by norm_num)).mpr (by omega)
      calc (Finset.Ico s (s + len)).sum (shiftHours cal) ≤ cap := hwin
        _ = cap * 1 := (Nat.mul_one cap).symm
        _ ≤ cap * ((len + 6) / 7) := Nat.mul_le_mul_left cap hweek
    · have hsplit := Finset.sum_Ico_consecutive (shiftHours cal)
        (show s ≤ s + 7 by omega) (show s + 7 ≤ s + len by omega)
      have hfirst : (Finset.Ico s (s + 7)).sum (shiftHours cal) ≤ cap := by
        have hwin := hw s
        have hinter : Finset.Ico s (s + len) ∩ Finset.Ico s (s + 7) =
            Finset.Ico s (s + 7) := by
          rw [Finset.Ico_inter_Ico, max_self]
          congr 1
          exact min_eq_right (by omega)
        rwa [hinter] at hwin
      have hrest : (Finset.Ico (s + 7) (s + 7 + (len - 7))).sum (shiftHours cal)
          ≤ cap * ((len - 7 + 6) / 7) := by
        refine ih (len - 7) (by omega) (s + 7) ?_
        intro w
        refine le_trans (Finset.sum_le_sum_of_subset ?_) (hw w)
        intro d hd
        simp only [Finset.mem_inter, Finset.mem_Ico] at hd ⊢
        omega
      have heq : s + 7 + (len - 7) = s + len := by omega
      rw [heq] at hrest
      have hdiv : (len - 7 + 6) / 7 + 1 = (len + 6) / 7 := by
        have h1 : len - 7 + 6 + 7 = len + 6 := by omega
        rw [← h1, Nat.add_div_right _ (by norm_num)]
      calc (Finset.Ico s (s + len)).sum (shiftHours cal)
          = (Finset.Ico s (s + 7)).sum (shiftHours cal) +
            (Finset.Ico (s + 7) (s + len)).sum (shiftHours cal) := hsplit.symm
        _ ≤ cap + cap * ((len - 7 + 6) / 7) := Nat.add_le_add hfirst hrest
        _ = cap * ((len - 7 + 6) / 7 + 1) := by ring
        _ = cap * ((len + 6) / 7) := by rw [hdiv]

/-- A rotation passing the hard-constraint check supplies at most the weekly
cap per week of the horizon. -/
theorem rotationOk_hours_le {cal : Calendar} {n : Nurse} {r : Rotation}
    (h : rotationOk cal n r = true) :
    rotHours cal r ≤ n.maxWeeklyHours * weeksOf cal := by
  simp only [rotationOk, Bool.and_eq_true, decide_eq_true_eq] at h
  obtain ⟨⟨⟨⟨hid, hlen1⟩, hhor⟩, hcons⟩, hwin⟩ := h
  have hall := slidingWindowOk_all hwin
  have hb := ico_hours_le cal n.maxWeeklyHours r.len r.start fun w => hall w
  refine le_trans hb (Nat.mul_le_mul_left _ (Nat.div_le_div_right ?_))
  omega

/-- The hours supplied by a selection with pairwise-distinct nurses, each
rotation checked against its owner, are bounded by the instance's available
nurse-hours. -/
theorem sel_hours_le (cal : Calendar) :
    ∀ (sel : List Rotation) (nurses : List Nurse),
      (∀ r ∈ sel, ∃ n ∈ nurses, n.id = r.nurseId ∧ rotationOk cal n r = true) →
      pairwiseNurseNe sel = true →
      (sel.map fun r => rotHours cal r).sum ≤ availableHours nurses cal
  | [], _, _, _ => Nat.zero_le _
  | r :: rs, nurses, hown, hpw => by
    obtain ⟨n, hn, hnid, hok⟩ := hown r (List.mem_cons_self r rs)
    have hpw' : (rs.all fun q => decide (q.nurseId ≠ r.nurseId)) = true ∧
        pairwiseNurseNe rs = true := by
      simpa [pairwiseNurseNe, Bool.and_eq_true] using hpw
    have hown' : ∀ q ∈ rs, ∃ m ∈ nurses.erase n, m.id = q.nurseId ∧
        rotationOk cal m q = true := by
      intro q hq
      obtain ⟨m, hm, hmid, hmok⟩ := hown q (List.mem_cons_of_mem r hq)
      have hqne : q.nurseId ≠ r.nurseId :=
        of_decide_eq_true (List.all_eq_true.mp hpw'.1 q hq)
      have hmn : m ≠ n := by
        intro hemn
        exact hqne (by rw [← hmid, hemn, hnid])
      exact ⟨m, (List.mem_erase_of_ne hmn).mpr hm, hmid, hmok⟩
    have ih := sel_hours_le cal rs (nurses.erase n) hown' hpw'.2
    have hsum : availableHours nurses cal =
        n.maxWeeklyHours * weeksOf cal + availableHours (nurses.erase n) cal := by
      have hperm : List.Perm nurses (n :: nurses.erase n) := List.perm_cons_erase hn
      have := (hperm.map fun m => m.maxWeeklyHours * weeksOf cal).sum_eq
      rw [availableHours, this]
      rfl
    calc ((r :: rs).map fun q => rotHours cal q).sum
        = rotHours cal r + (rs.map fun q => rotHours cal q).sum := by
          rw [List.map_cons, List.sum_cons]
      _ ≤ n.maxWeeklyHours * weeksOf cal + availableHours (nurses.erase n) cal :=
          Nat.add_le_add (rotationOk_hours_le hok) ih
      _ = availableHours nurses cal := hsum.symm

theorem coverCount_cons (q : Rotation) (sel : List Rotation) (d : Nat) :
    coverCount (q :: sel) d =
      (if q.start ≤ d ∧ d < q.start + q.len then 1 else 0) + coverCount sel d := by
  by_cases h : q.start ≤ d ∧ d < q.start + q.len
  · simp [coverCount, List.filter_cons, h]
    omega
  · simp [coverCount, List.filter_cons, h]

/-- Double-counting exchange: summing covered headcount weighted by shift
hours over the horizon equals summing each selected rotation's hours. -/
theorem cover_exchange (cal : Calendar) :
    ∀ sel : List Rotation, (∀ r ∈ sel, r.start + r.len ≤ cal.length) →
      ((Finset.range cal.length).sum fun d => shiftHours cal d * coverCount sel d)
        = (sel.map fun r => rotHours cal r).sum
  | [], _ => by simp [coverCount]
  | q :: rs, hin => by
    have ih := cover_exchange cal rs fun r hr => hin r (List.mem_cons_of_mem q hr)
    have hq := hin q (List.mem_cons_self q rs)
    have hsplit : ∀ d, shiftHours cal d * coverCount (q :: rs) d
        = (if d ∈ rotDays q then shiftHours cal d else 0) +
          shiftHours cal d * coverCount rs d := by
      intro d
      rw [coverCount_cons, Nat.mul_add]
      congr 1
      by_cases h : q.start ≤ d ∧ d < q.start + q.len
      · rw [if_pos h, Nat.mul_one,
          if_pos (by rw [rotDays, Finset.mem_Ico]; exact h)]
      · rw [if_neg h, Nat.mul_zero,
          if_neg (by rw [rotDays, Finset.mem_Ico]; exact h)]
    rw [Finset.sum_congr rfl fun d _ => hsplit d, Finset.sum_add_distrib, ih]
    have hsub : rotDays q ⊆ Finset.range cal.length := by
      intro d hd
      rw [rotDays, Finset.mem_Ico] at hd
      rw [Finset.mem_range]
      omega
    rw [Finset.sum_ite_mem, Finset.inter_eq_right.mpr hsub]
    rw [List.map_cons, List.sum_cons]
    rfl

/-- Coverage forces the selection to supply at least the demanded hours. -/
theorem demand_le_selected (cal : Calendar) (sel : List Rotation)
    (hcov : coverageOk cal sel = true)
    (hin : ∀ r ∈ sel, r.start + r.len ≤ cal.length) :
    demandHours cal ≤ (sel.map fun r => rotHours cal r).sum := by
  rw [← cover_exchange cal sel hin, demandHours]
  refine Finset.sum_le_sum ?_
  intro d hd
  have := List.all_eq_true.mp hcov d (List.mem_range.mpr (Finset.mem_range.mp hd))
  exact Nat.mul_le_mul_left _ (of_decide_eq_true this)

/-- With demand exceeding the available nurse-hours, no selection whatsoever
passes the hard-constraint check. -/
theorem capacity_no_feasible {nurses : List Nurse} {cal : Calendar}
    (hcap : availableHours nurses cal < demandHours cal) (sel : List Rotation) :
    scheduleHardOk nurses cal sel = false := by
  cases hval : scheduleHardOk nurses cal sel
  · rfl
  · exfalso
    have h : scheduleHardOk nurses cal sel = true := hval
    simp only [scheduleHardOk, Bool.and_eq_true] at h
    obtain ⟨⟨hall, hpw⟩, hcov⟩ := h
    have hown : ∀ r ∈ sel, ∃ n ∈ nurses, n.id = r.nurseId ∧
        rotationOk cal n r = true := by
      intro r hr
      have hro := List.all_eq_true.mp hall r hr
      rw [rotOkForOwner] at hro
      rcases hfind : nurses.find? (fun n => decide (n.id = r.nurseId)) with - | n
      · rw [hfind] at hro; cases hro
      · rw [hfind] at hro
        have hpred := List.find?_some hfind
        exact ⟨n, List.mem_of_find?_eq_some hfind,
          of_decide_eq_true hpred, hro⟩
    have hin : ∀ r ∈ sel, r.start + r.len ≤ cal.length := by
      intro r hr
      obtain ⟨n, -, -, hok⟩ := hown r hr
      simp only [rotationOk, Bool.and_eq_true, decide_eq_true_eq] at hok
      exact hok.1.1.2
    have h1 := demand_le_selected cal sel hcov hin
    have h2 := sel_hours_le cal sel nurses hown hpw
    omega

/-- When no selection is hard-feasible, the pool yields no feasible
candidate. -/
theorem bestFeasible_eq_none {nurses : List Nurse} {cal : Calendar}
    (p : ColumnPool) (h : ∀ sel, scheduleHardOk nurses cal sel = false) :
    bestFeasible nurses cal p = none := by
  rw [bestFeasible]
  have hfil : (poolCols p).sublists.filter (scheduleHardOk nurses cal) = [] := by
    refine List.filter_eq_nil_iff.mpr ?_
    intro a _
    rw [h a]
    exact Bool.false_ne_true
  rw [hfil]

theorem insertColumn_nodup {p : ColumnPool} (r : Rotation)
    (hnd : (poolFps p).Nodup) : (poolFps (insertColumn p r)).Nodup := by
  by_cases h : fingerprint r ∈ poolFps p
  · rw [insertColumn_of_mem h]
    exact hnd
  · have hentries : (insertColumn p r).entries = p.entries ++ [(fingerprint r, r)] := by
      simp [insertColumn, h]
    rw [poolFps, hentries, List.map_append, List.nodup_append]
    refine ⟨hnd, by simp, ?_⟩
    intro x hx hx'
    simp only [List.map_cons, List.map_nil, List.mem_singleton] at hx'
    exact h (hx' ▸ hx)

theorem insertColumn_wf {nurses : List Nurse} {cal : Calendar} {p : ColumnPool}
    (hp : PoolWf nurses cal p) {r : Rotation}
    (hr : ∃ n ∈ nurses, r ∈ generate n cal) :
    PoolWf nurses cal (insertColumn p r) := by
  refine ⟨insertColumn_nodup r hp.1, ?_⟩
  intro e he
  rcases insertColumn_entries p r with h | h <;> rw [h] at he
  · exact hp.2 e he
  · rcases List.mem_append.mp he with h' | h'
    · exact hp.2 e h'
    · rw [List.mem_singleton] at h'
      subst h'
      exact ⟨rfl, hr⟩

theorem foldl_insert_wf {nurses : List Nurse} {cal : Calendar} :
    ∀ (l : List Rotation) (p : ColumnPool), PoolWf nurses cal p →
      (∀ r ∈ l, ∃ n ∈ nurses, r ∈ generate n cal) →
      PoolWf nurses cal (l.foldl insertColumn p)
  | [], p, hp, _ => hp
  | r :: rs, p, hp, hl => by
    rw [List.foldl_cons]
    exact foldl_insert_wf rs (insertColumn p r)
      (insertColumn_wf hp (hl r (List.mem_cons_self r rs)))
      fun q hq => hl q (List.mem_cons_of_mem r hq)

theorem seedPool_wf (nurses : List Nurse) (cal : Calendar) :
    PoolWf nurses cal (seedPool nurses cal) := by
  rw [seedPool]
  suffices h : ∀ (l : List Nurse) (p : ColumnPool), PoolWf nurses cal p →
      (∀ n ∈ l, n ∈ nurses) →
      PoolWf nurses cal
        (l.foldl (fun q n => (generate n cal).foldl insertColumn q) p) by
    refine h nurses ⟨[]⟩ ⟨List.nodup_nil, by simp⟩ fun n hn => hn
  intro l
  induction l with
  | nil => exact fun p hp _ => hp
  | cons n ns ih =>
    intro p hp hl
    rw [List.foldl_cons]
    refine ih _ (foldl_insert_wf _ p hp ?_) fun m hm => hl m (List.mem_cons_of_mem n hm)
    intro r hr
    exact ⟨n, hl n (List.mem_cons_self n ns), hr⟩

theorem addColumns_wf {nurses : List Nurse} {cal : Calendar} :
    ∀ (cols : List PriceResult) (p : ColumnPool), PoolWf nurses cal p →
      (∀ c ∈ cols, ∃ n ∈ nurses, c.2 ∈ generate n cal) →
      PoolWf nurses cal (addColumns p cols)
  | [], p, hp, _ => hp
  | c :: cs, p, hp, hc => by
    rw [addColumns, List.foldl_cons, ← addColumns]
    exact addColumns_wf cs _ (insertColumn_wf hp (hc c (List.mem_cons_self c cs)))
      fun d hd => hc d (List.mem_cons_of_mem c hd)

/-- Every merged pricing result comes from pricing some nurse of the round's
order and is fresh with respect to the pool. -/
theorem priceRound_mem {cal : Calendar} {p : ColumnPool} {arrival : List Nurse}
    {c : PriceResult} (hc : c ∈ priceRound cal p arrival) :
    (∃ n ∈ arrival, c.2 ∈ generate n cal) ∧ fpMem p c.2 = false := by
  rw [priceRound] at hc
  have hc' : c ∈ arrival.filterMap fun n =>
      (bestImproving cal p n).map fun r => (n.id, r) :=
    (sortById_perm _).mem_iff.mp hc
  obtain ⟨n, hn, hfn⟩ := List.mem_filterMap.mp hc'
  rcases hb : bestImproving cal p n with - | r
  · rw [hb] at hfn; cases hfn
  · rw [hb] at hfn
    simp at hfn
    have hsound := bestImproving_sound hb
    rw [← hfn]
    exact ⟨⟨n, hn, hsound.1⟩, hsound.2⟩

/-- Pool well-formedness is an invariant of the whole column-generation
loop. -/
theorem cgLoop_wf (nurses : List Nurse) (cal : Calendar) :
    ∀ (fuel : Nat) (p : ColumnPool) (arrs : List (List Nurse)),
      PoolWf nurses cal p →
      (∀ a ∈ arrs, ∀ n ∈ a, n ∈ nurses) →
      PoolWf nurses cal (cgLoop nurses cal fuel p arrs).pool
  | 0, p, arrs, hp, _ => hp
  | fuel + 1, p, arrs, hp, harrs => by
    simp only [cgLoop]
    split
    · exact hp
    · have harrival : ∀ n ∈ arrs.headD nurses, n ∈ nurses := by
        cases arrs with
        | nil => exact fun n hn => hn
        | cons a t => exact harrs a (List.mem_cons_self a t)
      refine cgLoop_wf nurses cal fuel _ arrs.tail
        (addColumns_wf _ p hp ?_)
        fun a ha => harrs a (List.mem_of_mem_tail ha)
      intro c hc
      obtain ⟨⟨n, hn, hg⟩, -⟩ := priceRound_mem hc
      exact ⟨n, harrival n hn, hg⟩

theorem poolWf_length_le {nurses : List Nurse} {cal : Calendar} {p : ColumnPool}
    (hp : PoolWf nurses cal p) :
    p.entries.length ≤ totalCandidates nurses cal := by
  have h2 : poolFps p ⊆ (allCandidates nurses cal).map fingerprint := by
    intro fp hfp
    obtain ⟨e, he, hfe⟩ := List.mem_map.mp hfp
    obtain ⟨hkey, n, hn, hgen⟩ := hp.2 e he
    refine List.mem_map.mpr ⟨e.2, ?_, ?_⟩
    · rw [allCandidates]
      exact List.mem_flatMap.mpr ⟨n, hn, hgen⟩
    · rw [← hkey, hfe]
  have hsub := (List.Nodup.subperm hp.1 h2).length_le
  calc p.entries.length = (poolFps p).length := by rw [poolFps, List.length_map]
    _ ≤ ((allCandidates nurses cal).map fingerprint).length := hsub
    _ = totalCandidates nurses cal := by rw [List.length_map]; rfl

theorem addColumns_length_mono :
    ∀ (cols : List PriceResult) (p : ColumnPool),
      p.entries.length ≤ (addColumns p cols).entries.length
  | [], _ => le_refl _
  | c :: cs, p => by
    rw [addColumns, List.foldl_cons, ← addColumns]
    exact le_trans (insertColumn_length p c.2) (addColumns_length_mono cs _)

theorem addColumns_grows {p : ColumnPool} {cols : List PriceResult}
    (hne : cols ≠ []) (hfresh : ∀ c ∈ cols, fpMem p c.2 = false) :
    p.entries.length + 1 ≤ (addColumns p cols).entries.length := by
  cases cols with
  | nil => exact absurd rfl hne
  | cons c cs =>
    calc p.entries.length + 1 ≤ (insertColumn p c.2).entries.length :=
        insertColumn_length_fresh (hfresh c (List.mem_cons_self c cs))
      _ ≤ (addColumns (insertColumn p c.2) cs).entries.length :=
        addColumns_length_mono cs _
      _ = (addColumns p (c :: cs)).entries.length := rfl

/-- With an iteration budget exceeding the candidate universe, the
column-generation loop converges: every non-final round strictly grows the
pool, whose size the candidate universe bounds. -/
theorem cgLoop_converges (nurses : List Nurse) (cal : Calendar) :
    ∀ (fuel : Nat) (p : ColumnPool) (arrs : List (List Nurse)),
      PoolWf nurses cal p →
      (∀ a ∈ arrs, ∀ n ∈ a, n ∈ nurses) →
      totalCandidates nurses cal + 1 ≤ fuel + p.entries.length →
      (cgLoop nurses cal fuel p arrs).converged = true
  | 0, p, arrs, hp, _, hfuel => by
    exfalso
    have := poolWf_length_le hp
    omega
  | fuel + 1, p, arrs, hp, harrs, hfuel => by
    simp only [cgLoop]
    split
    · rfl
    · rename_i hne
      have harrival : ∀ n ∈ arrs.headD nurses, n ∈ nurses := by
        cases arrs with
        | nil => exact fun n hn => hn
        | cons a t => exact harrs a (List.mem_cons_self a t)
      have hprov : ∀ c ∈ priceRound cal p (arrs.headD nurses),
          ∃ n ∈ nurses, c.2 ∈ generate n cal := by
        intro c hc
        obtain ⟨⟨n, hn, hg⟩, -⟩ := priceRound_mem hc
        exact ⟨n, harrival n hn, hg⟩
      have hfresh : ∀ c ∈ priceRound cal p (arrs.headD nurses),
          fpMem p c.2 = false :=
        fun c hc => (priceRound_mem hc).2
      have hnonnil : priceRound cal p (arrs.headD nurses) ≠ [] := by
        intro hnil
        rw [hnil] at hne
        exact hne rfl
      have hgrow := addColumns_grows hnonnil hfresh
      refine cgLoop_converges nurses cal fuel _ arrs.tail
        (addColumns_wf _ p hp hprov)
        (fun a ha => harrs a (List.mem_of_mem_tail ha)) ?_
      omega

/-- C6: when the demanded nurse-hours exceed the total available nurse-hours,
the solver — run with any full-generation iteration budget — terminates with
`InfeasibleProblem` and never returns a schedule flagged feasible. -/
theorem capacity_infeasible (nurses : List Nurse) (cal : Calendar)
    (arrivals : List (List Nurse)) (fuel : Nat)
    (hcap : availableHours nurses cal < demandHours cal)
    (harr : ∀ a ∈ arrivals, ∀ n ∈ a, n ∈ nurses)
    (hfuel : totalCandidates nurses cal < fuel) :
    solve nurses cal arrivals fuel = .error .InfeasibleProblem := by
  have hconv : (cgLoop nurses cal fuel (seedPool nurses cal) arrivals).converged = true :=
    cgLoop_converges nurses cal fuel (seedPool nurses cal) arrivals
      (seedPool_wf nurses cal) harr (by omega)
  have hnone := bestFeasible_eq_none
    (cgLoop nurses cal fuel (seedPool nurses cal) arrivals).pool
    (capacity_no_feasible hcap)
  simp only [solve, hnone, hconv, if_true]

/-- Witness for C6: one nurse with an 8-hour weekly cap against a one-day
demand of two 8-hour heads (16 demanded vs 8 available nurse-hours); the
solver surfaces `InfeasibleProblem`. -/
theorem capacity_infeasible_witness :
    solve [⟨0, 8, 7⟩] [⟨8, 2⟩] [] 2 = .error .InfeasibleProblem :=
  capacity_infeasible [⟨0, 8, 7⟩] [⟨8, 2⟩] [] 2 (by decide)
    (by intro a ha; cases ha) (by decide)

/-- C2: every rotation the Rotation Builder emits satisfies the owning nurse's
hard constraints — in particular the weekly cap in every sliding 7-day
window — and every rotation admitted to the column pool over a whole solve is
a generated, hard-feasible rotation of one of the instance's nurses. -/
theorem generate_rotations_feasible (nurses : List Nurse) (cal : Calendar)
    (arrivals : List (List Nurse)) (fuel : Nat) (n : Nurse) (r : Rotation)
    (harr : ∀ a ∈ arrivals, ∀ m ∈ a, m ∈ nurses) :
    (r ∈ generate n cal → rotationOk cal n r = true ∧
      ∀ w, windowHours cal r w ≤ n.maxWeeklyHours) ∧
    ∀ e ∈ (cgLoop nurses cal fuel (seedPool nurses cal) arrivals).pool.entries,
      ∃ m ∈ nurses, e.2 ∈ generate m cal ∧ rotationOk cal m e.2 = true := by
  constructor
  · intro hr
    have hok := mem_generate_rotationOk hr
    refine ⟨hok, slidingWindowOk_all ?_⟩
    simp only [rotationOk, Bool.and_eq_true] at hok
    exact hok.2
  · intro e he
    have hwf := cgLoop_wf nurses cal fuel (seedPool nurses cal) arrivals
      (seedPool_wf nurses cal) harr
    obtain ⟨-, m, hm, hg⟩ := hwf.2 e he
    exact ⟨m, hm, hg, mem_generate_rotationOk hg⟩

/-- Witness for C2: a one-day calendar, one nurse; the single generated
rotation passes the hard-constraint check and its first window is within the
cap. -/
theorem generate_rotations_feasible_witness :
    rotationOk [⟨8, 1⟩] ⟨0, 40, 3⟩ ⟨0, 0, 1⟩ = true ∧
    windowHours [⟨8, 1⟩] ⟨0, 0, 1⟩ 0 ≤ 40 := by
  have h := (generate_rotations_feasible [⟨0, 40, 3⟩] [⟨8, 1⟩] [] 1
    ⟨0, 40, 3⟩ ⟨0, 0, 1⟩ (by intro a ha; cases ha)).1 (by decide)
  exact ⟨h.1, h.2 0⟩

/-- C3: the pool's only mutating operation preserves the
no-duplicate-fingerprint invariant, rejects an already-present fingerprint
leaving the pool unchanged, only ever appends entries (none is removed within
a solve) — and consequently the pool of a whole solve carries pairwise
distinct fingerprints. -/
theorem columnPool_fingerprint_invariant (nurses : List Nurse) (cal : Calendar)
    (arrivals : List (List Nurse)) (fuel : Nat) (p : ColumnPool) (r : Rotation)
    (hnd : (poolFps p).Nodup)
    (harr : ∀ a ∈ arrivals, ∀ m ∈ a, m ∈ nurses) :
    (poolFps (insertColumn p r)).Nodup ∧
    (fingerprint r ∈ poolFps p → insertColumn p r = p) ∧
    (∃ added, (insertColumn p r).entries = p.entries ++ added) ∧
    (poolFps (cgLoop nurses cal fuel (seedPool nurses cal) arrivals).pool).Nodup := by
  refine ⟨insertColumn_nodup r hnd, fun h => insertColumn_of_mem h, ?_, ?_⟩
  · rcases insertColumn_entries p r with h | h
    · exact ⟨[], by rw [h, List.append_nil]⟩
    · exact ⟨[(fingerprint r, r)], h⟩
  · exact (cgLoop_wf nurses cal fuel (seedPool nurses cal) arrivals
      (seedPool_wf nurses cal) harr).1

/-- Witness for C3: re-inserting an already-present fingerprint into a
singleton pool keeps the invariant and leaves the pool unchanged. -/
theorem columnPool_fingerprint_invariant_witness :
    (poolFps (insertColumn ⟨[((0, 0, 1), ⟨0, 0, 1⟩)]⟩ ⟨0, 0, 1⟩)).Nodup ∧
    insertColumn ⟨[((0, 0, 1), ⟨0, 0, 1⟩)]⟩ ⟨0, 0, 1⟩ =
      ⟨[((0, 0, 1), ⟨0, 0, 1⟩)]⟩ := by
  have h := columnPool_fingerprint_invariant [⟨0, 40, 3⟩] [⟨8, 1⟩] [] 1
    ⟨[((0, 0, 1), ⟨0, 0, 1⟩)]⟩ ⟨0, 0, 1⟩ (by decide) (by intro a ha; cases ha)
  exact ⟨h.1, h.2.1 (by decide)⟩

end NurseSched
